import Mathlib

/-!
Shallow embedding of the grepmarx core logic:
`src/app/projects/util.py` (risk scorer, occurrence counter, line-count
aggregator, top-language selector, access resolver) and
`src/grepmarx/rules/util.py` (severity classifier, rule synchronizer).
Theorems settle the spec's claims against these definitions.
-/

namespace Grepmarx

/-- Modelled from the spec: the severity constants `SEVERITY_LOW`,
`SEVERITY_MEDIUM`, `SEVERITY_HIGH`, `SEVERITY_CRITICAL` live in
`app/constants.py` / `grepmarx/constants.py`, which are not under `src/`.
The code only compares severities for equality and stores them, so a
closed enumeration with the four tiers is a faithful model. -/
inductive Severity where
  | low
  | medium
  | high
  | critical
deriving DecidableEq, Repr

/-- One vulnerability occurrence record; its payload is irrelevant to the
counting logic, only its presence counts. -/
structure Occurence where
  id : Nat
deriving DecidableEq, Repr

/-- SAST finding (`Vulnerability` model): carries a severity tier and a
list of occurrence records. -/
structure Vulnerability where
  severity : Severity
  occurences : List Occurence
deriving DecidableEq, Repr

/-- SCA finding (`VulnerableDependency` model): carries a severity tier. -/
structure VulnerableDependency where
  severity : Severity
deriving DecidableEq, Repr

/-- `Analysis` model: collections of SAST and SCA findings. -/
structure Analysis where
  vulnerabilities : List Vulnerability
  vulnerable_dependencies : List VulnerableDependency
deriving DecidableEq, Repr

/-- Per-language counters (`LanguageLinesCount` model). -/
structure LanguageLinesCount where
  language : String
  file_count : Int
  line_count : Int
  blank_count : Int
  comment_count : Int
  code_count : Int
  complexity_count : Int
deriving DecidableEq, Repr

/-- Project-level counters (`ProjectLinesCount` model) owning the ordered
per-language counts. -/
structure ProjectLinesCount where
  total_file_count : Int
  total_line_count : Int
  total_blank_count : Int
  total_comment_count : Int
  total_code_count : Int
  total_complexity_count : Int
  language_lines_counts : List LanguageLinesCount
deriving DecidableEq, Repr

/-- `Project` model: zero-or-one `Analysis`, zero-or-one
`ProjectLinesCount`. -/
structure Project where
  name : String
  analysis : Option Analysis
  project_lines_count : Option ProjectLinesCount
deriving DecidableEq, Repr

/-- `has_vuln_with_severity` from `src/app/projects/util.py`: the loop
returns `True` at the first vulnerability with the given severity. -/
def has_vuln_with_severity (analysis : Analysis) (severity_level : Severity) : Bool :=
  analysis.vulnerabilities.any (fun vuln => decide (vuln.severity = severity_level))

/-- `has_vuln_dep_with_severity` from `src/app/projects/util.py`. -/
def has_vuln_dep_with_severity (analysis : Analysis) (severity_level : Severity) : Bool :=
  analysis.vulnerable_dependencies.any (fun vuln => decide (vuln.severity = severity_level))

/-- `calculate_risk_level` from `src/app/projects/util.py`. The first
severity scan (base level) breaks at the first matching tier, scanned in
the dict's insertion order CRITICAL, HIGH, MEDIUM, LOW; the second scan
(SCA adjustment) has no break and therefore adds the increment of every
tier present among the vulnerable dependencies. -/
def calculate_risk_level (project : Project) : Int :=
  match project.analysis with
  | none => 0
  | some analysis =>
    match project.project_lines_count with
    | none => 0
    | some plc =>
      if plc.total_code_count > 0 then
        (if has_vuln_with_severity analysis .critical then (75 : Int)
          else if has_vuln_with_severity analysis .high then 60
          else if has_vuln_with_severity analysis .medium then 40
          else if has_vuln_with_severity analysis .low then 20
          else 0)
          + (if has_vuln_dep_with_severity analysis .critical then (10 : Int) else 0)
          + (if has_vuln_dep_with_severity analysis .high then 8 else 0)
          + (if has_vuln_dep_with_severity analysis .medium then 5 else 0)
          + (if has_vuln_dep_with_severity analysis .low then 2 else 0)
      else 0

/-- `count_occurences` from `src/app/projects/util.py`: accumulates the
length of each vulnerability's occurrence list. -/
def count_occurences (project : Project) : Nat :=
  match project.analysis with
  | none => 0
  | some analysis =>
    analysis.vulnerabilities.foldl
      (fun occurences_count c_vulnerability =>
        occurences_count + c_vulnerability.occurences.length) 0

/-! Specification-side definitions for the risk scorer, written from the
spec's words ("highest severity tier among the Analysis's
vulnerabilities", fixed base values and increments), to be compared with
the code's `calculate_risk_level`. -/

/-- Base value the spec assigns to a severity tier. -/
def base_of_severity : Severity → Int
  | .critical => 75
  | .high => 60
  | .medium => 40
  | .low => 20

/-- Adjustment increment the spec assigns to a severity tier. -/
def adjust_of_severity : Severity → Int
  | .critical => 10
  | .high => 8
  | .medium => 5
  | .low => 2

/-- Tiers, from highest to lowest, at which the Analysis has at least one
vulnerability. -/
def vuln_tiers_present (a : Analysis) : List Severity :=
  [Severity.critical, Severity.high, Severity.medium, Severity.low].filter
    (fun s => decide (∃ v ∈ a.vulnerabilities, v.severity = s))

/-- Tiers, from highest to lowest, at which the Analysis has at least one
vulnerable dependency. -/
def dep_tiers_present (a : Analysis) : List Severity :=
  [Severity.critical, Severity.high, Severity.medium, Severity.low].filter
    (fun s => decide (∃ d ∈ a.vulnerable_dependencies, d.severity = s))

/-- Spec base score: the base value of the highest tier present among the
vulnerabilities, 0 when there are none. -/
def spec_base (a : Analysis) : Int :=
  match (vuln_tiers_present a).head? with
  | none => 0
  | some s => base_of_severity s

/-- The claim's adjustment: exactly one increment, for the highest tier
present among the vulnerable dependencies, 0 when there are none. -/
def claim_adjust (a : Analysis) : Int :=
  match (dep_tiers_present a).head? with
  | none => 0
  | some s => adjust_of_severity s

/-- The adjustment the code actually computes, phrased spec-side: the sum
of the increments of every tier present among the vulnerable
dependencies. -/
def spec_adjust_sum (a : Analysis) : Int :=
  ((dep_tiers_present a).map adjust_of_severity).sum

/-- Concrete project used to separate the code's adjustment (a sum over
all dependency tiers present) from the claim's single-increment
adjustment: one CRITICAL vulnerability, one CRITICAL and one HIGH
vulnerable dependency, 100 lines of code. -/
def two_tier_dep_analysis : Analysis :=
  { vulnerabilities := [{ severity := .critical, occurences := [] }],
    vulnerable_dependencies := [{ severity := .critical }, { severity := .high }] }

/-- Project wrapping `two_tier_dep_analysis` with a positive code count. -/
def two_tier_dep_project : Project :=
  { name := "p",
    analysis := some two_tier_dep_analysis,
    project_lines_count := some
      { total_file_count := 1, total_line_count := 120, total_blank_count := 10,
        total_comment_count := 10, total_code_count := 100,
        total_complexity_count := 5, language_lines_counts := [] } }

/-! Line-count aggregator: `load_project_lines_count` and
`top_language_lines_counts` from `src/app/projects/util.py`. -/

/-- One element of the deserialized scc JSON output, with the fields
`Name, Count, Lines, Blank, Comment, Code, Complexity`. -/
structure SccEntry where
  name : String
  count : Int
  lines : Int
  blank : Int
  comment : Int
  code : Int
  complexity : Int
deriving DecidableEq, Repr

/-- The `LanguageLinesCount` built from one scc entry in the loop body of
`load_project_lines_count`. -/
def llc_of_scc (c : SccEntry) : LanguageLinesCount :=
  { language := c.name, file_count := c.count, line_count := c.lines,
    blank_count := c.blank, comment_count := c.comment, code_count := c.code,
    complexity_count := c.complexity }

/-- One iteration of the loop in `load_project_lines_count`: append the
per-language record and add its counters to the running totals. -/
def load_step (project_lc : ProjectLinesCount) (c : SccEntry) : ProjectLinesCount :=
  { total_file_count := project_lc.total_file_count + c.count,
    total_line_count := project_lc.total_line_count + c.lines,
    total_blank_count := project_lc.total_blank_count + c.blank,
    total_comment_count := project_lc.total_comment_count + c.comment,
    total_code_count := project_lc.total_code_count + c.code,
    total_complexity_count := project_lc.total_complexity_count + c.complexity,
    language_lines_counts := project_lc.language_lines_counts ++ [llc_of_scc c] }

/-- `load_project_lines_count` from `src/app/projects/util.py`: starts
from all-zero totals and folds the loop body over the scc entries in
order. -/
def load_project_lines_count (scc_result : List SccEntry) : ProjectLinesCount :=
  scc_result.foldl load_step
    { total_file_count := 0, total_line_count := 0, total_blank_count := 0,
      total_comment_count := 0, total_code_count := 0, total_complexity_count := 0,
      language_lines_counts := [] }

/-! Stable descending sort by code count, modelling Python's stable
`sorted(..., key=lambda x: x.code_count, reverse=True)` used by
`top_language_lines_counts`. The element being inserted comes earlier in
the original list than everything already sorted, so it is placed before
the first element whose code count does not exceed it: the resulting
function is a permutation, descending, and stable (proved below), which
characterizes Python's stable sort extensionally. -/

/-- Insert an element before the first position whose code count is less
than or equal to its own. -/
def insert_desc (x : LanguageLinesCount) :
    List LanguageLinesCount → List LanguageLinesCount
  | [] => [x]
  | y :: ys =>
    if y.code_count ≤ x.code_count then x :: y :: ys else y :: insert_desc x ys

/-- Stable insertion sort, descending by code count. -/
def sorted_desc_by_code : List LanguageLinesCount → List LanguageLinesCount
  | [] => []
  | x :: xs => insert_desc x (sorted_desc_by_code xs)

/-- `top_language_lines_counts` from `src/app/projects/util.py`: stable
descending sort by code count, then keep the first `top_number`
entries. -/
def top_language_lines_counts (project_lc : ProjectLinesCount) (top_number : Nat) :
    List LanguageLinesCount :=
  (sorted_desc_by_code project_lc.language_lines_counts).take top_number

/-! Access resolver: `has_access` from `src/app/projects/util.py`. -/

/-- `Team` model: a named collection of users and of projects. The code
navigates the relations by filtering on member username and project
name, so members and projects are carried here by those keys. -/
structure Team where
  name : String
  members : List String
  projects : List String
deriving DecidableEq, Repr

/-- `User` model: the fields `has_access` reads. -/
structure User where
  username : String
  role : String
deriving DecidableEq, Repr

/-- Modelled from the spec: the `ROLE_ADMIN` constant lives in
`app/constants.py`, which is not under `src/`; only equality of
`user.role` against it matters, so any fixed value is faithful. -/
def ROLE_ADMIN : String := "admin"

/-- The query `Team.query.filter(Team.members.any(username=...)).all()`:
every team having a member with the user's username. -/
def user_teams_of (teams : List Team) (current_user : User) : List Team :=
  teams.filter (fun t => t.members.any (fun m => decide (m = current_user.username)))

/-- The query `Team.query.filter(Team.projects.any(name=...)).all()`:
every team having a project with the project's name. -/
def project_teams_of (teams : List Team) (project : Project) : List Team :=
  teams.filter (fun t => t.projects.any (fun q => decide (q = project.name)))

/-- `has_access` from `src/app/projects/util.py`: admins always pass;
otherwise the user's teams and the project's teams must not be
disjoint. -/
def has_access (teams : List Team) (current_user : User) (project : Project) : Bool :=
  if current_user.role = ROLE_ADMIN then
    true
  else
    if (user_teams_of teams current_user).all
        (fun t => decide (t ∉ project_teams_of teams project)) then
      false
    else
      true

/-! Severity classifier: `generate_severity` from
`src/grepmarx/rules/util.py`. -/

/-- Severity constant names used by the classifier code. -/
def SEVERITY_LOW : Severity := .low

/-- Severity constant used for CWEs outside the curated table. -/
def SEVERITY_MEDIUM : Severity := .medium

/-- The maximal run of digits at the head of a character list (the greedy
match of the regex fragment `\d+`; `\d` is modelled as the ten ASCII
digits). -/
def digits_head : List Char → List Char
  | [] => []
  | c :: cs => if c.isDigit then c :: digits_head cs else []

/-- Case-insensitive match of `CWE-\d+` anchored at the head of the
character list, returning the matched digits. -/
def cwe_match_at (l : List Char) : Option (List Char) :=
  match l with
  | c1 :: c2 :: c3 :: c4 :: rest =>
    if (c1 = 'C' ∨ c1 = 'c') ∧ (c2 = 'W' ∨ c2 = 'w') ∧ (c3 = 'E' ∨ c3 = 'e')
        ∧ c4 = '-' then
      match rest with
      | [] => none
      | d :: _ => if d.isDigit then some (digits_head rest) else none
    else none
  | _ => none

/-- `re.search("(CWE-\d+)", s, re.IGNORECASE)`: scan left to right and
return the digits of the first position where `CWE-\d+` matches. -/
def cwe_search : List Char → Option (List Char)
  | [] => none
  | c :: cs =>
    match cwe_match_at (c :: cs) with
    | some ds => some ds
    | none => cwe_search cs

/-- `generate_severity` from `src/grepmarx/rules/util.py`, parameterized
by the `TOP40_CWE_SEVERITIES` table (defined in `grepmarx/constants.py`,
which is not under `src/`; every claim about the classifier is parametric
in the table's contents). `match.group(1).upper()` turns the matched text
into `CWE-` followed by the matched digits, which is then looked up in
the table; a hit returns the table's tier, a miss returns MEDIUM, no
match or a `None` input returns LOW. -/
def generate_severity (top40 : List (String × Severity)) :
    Option String → Severity
  | none => SEVERITY_LOW
  | some cwe_string =>
    match cwe_search cwe_string.toList with
    | none => SEVERITY_LOW
    | some ds =>
      match top40.lookup ("CWE-" ++ String.mk ds) with
      | some sev => sev
      | none => SEVERITY_MEDIUM

/-! Rule synchronizer: `sync_db` from `src/grepmarx/rules/util.py`.
The database session is modelled as an explicit state (list of rules plus
a fresh-id counter); `Rule.query.filter_by(file_path=...).first()` is a
scan of that state (the session autoflushes, so rules added earlier in
the same run are visible); `db.session.commit()` after each successfully
parsed file makes the state durable, and a `YAMLError` rolls back the (at
that point empty) pending changes of the failing file and propagates,
ending the run. -/

/-- `Rule` model: the fields `sync_db` reads and writes. `repository`
holds the name of the owning `RuleRepository` (the code looks it up by
name; `none` models a missing repository record), `languages` the names
of the associated `SupportedLanguage` records, in association order. -/
structure Rule where
  id : Nat
  title : String
  file_path : String
  repository : Option String
  category : String
  cwe : Option String
  owasp : Option String
  severity : Severity
  languages : List String
deriving DecidableEq, Repr

/-- All fields of a `Rule` except the language associations, used to
state which fields a re-run leaves unchanged. -/
structure RuleKey where
  id : Nat
  title : String
  file_path : String
  repository : Option String
  category : String
  cwe : Option String
  owasp : Option String
  severity : Severity
deriving DecidableEq, Repr

/-- Projection of a `Rule` to all its fields except `languages`. -/
def rule_key (r : Rule) : RuleKey :=
  { id := r.id, title := r.title, file_path := r.file_path,
    repository := r.repository, category := r.category, cwe := r.cwe,
    owasp := r.owasp, severity := r.severity }

/-- The `metadata.owasp` value of a rule entry: either a single string or
a list, of which the code takes element `[0]`. The list form carries an
explicit head because on an empty list the source raises `IndexError`
(uncaught, killing the run with nothing committed for the current file);
that path is outside every claim, so the embedding's domain is documents
whose owasp lists are nonempty. -/
inductive OwaspMeta where
  | str (s : String)
  | list (head : String) (tail : List String)
deriving DecidableEq, Repr

/-- One entry of a parsed file's `rules` list: `id`, optional `languages`
list, optional `metadata.cwe` and `metadata.owasp` (an absent `metadata`
key behaves as both being absent). -/
structure RuleEntry where
  id : String
  languages : Option (List String)
  metadata_cwe : Option String
  metadata_owasp : Option OwaspMeta
deriving DecidableEq, Repr

/-- Outcome of `yaml.safe_load` on one rule file: a `YAMLError`, a
document without a `rules` key, or a document with a `rules` list. -/
inductive ParsedYaml where
  | failure
  | no_rules
  | rules (entries : List RuleEntry)
deriving DecidableEq, Repr

/-- One file found by the glob: its path relative to `RULES_PATH` (the
code strips that prefix) and the outcome of parsing it. -/
structure RuleFile where
  path : String
  parsed : ParsedYaml
deriving DecidableEq, Repr

/-- Split a character list at every `/`, keeping empty segments, as
Python's `split` does. (`String.splitOn` is extensionally the same for
this separator but is not structurally recursive, so the split is
written out.) -/
def split_on_sep (l : List Char) : List String :=
  match l with
  | [] => [""]
  | c :: cs =>
    let rest := split_on_sep cs
    if c = '/' then "" :: rest
    else String.mk (c :: (rest.headD "").toList) :: rest.tail

/-- `file_path.split(os.path.sep)`. -/
def path_segments (file_path : String) : List String :=
  split_on_sep file_path.toList

/-- `file_path.split(os.path.sep)[0]`: the repository name. -/
def repository_of (file_path : String) : String :=
  (path_segments file_path).headD ""

/-- `".".join(file_path.split(os.path.sep)[1:][:-1])`: the category. -/
def category_of (file_path : String) : String :=
  String.intercalate "." (((path_segments file_path).drop 1).dropLast)

/-- ASCII lowercasing of a string, the model of Python's `lower()` (the
code compares supported-language names case-insensitively). -/
def str_lower (str : String) : String :=
  String.mk (str.toList.map Char.toLower)

/-- The nested language loop: for each language token of the entry, every
supported language whose name matches case-insensitively (`lower()`,
modelled as ASCII lowercasing) is appended, in loop order. -/
def matched_languages (supported_languages : List String)
    (entry_langs : List String) : List String :=
  (entry_langs.map (fun c_language =>
    supported_languages.filter
      (fun c_sl => str_lower c_sl == str_lower c_language))).flatten

/-- The owasp id the metadata block stores: the value itself for a
string, element `[0]` for a list, nothing when absent. -/
def owasp_value (c_rule : RuleEntry) : Option String :=
  match c_rule.metadata_owasp with
  | none => none
  | some (.str s) => some s
  | some (.list h _) => some h

/-- The body of the per-rule loop after the lookup-or-create: associate
matching languages, store CWE and OWASP metadata when present, then
always recompute `severity` from the (possibly just updated) CWE. -/
def apply_rule_updates (top40 : List (String × Severity))
    (supported_languages : List String) (c_rule : RuleEntry) (r : Rule) : Rule :=
  let langs := match c_rule.languages with
    | none => r.languages
    | some ls => r.languages ++ matched_languages supported_languages ls
  let cwe := match c_rule.metadata_cwe with
    | none => r.cwe
    | some c => some c
  let owasp := match c_rule.metadata_owasp with
    | none => r.owasp
    | some _ => owasp_value c_rule
  { r with
    languages := langs,
    cwe := cwe,
    owasp := owasp,
    severity := generate_severity top40 cwe }

/-- The rule-store state: persisted rules and the next fresh identifier
the database would assign. -/
structure SyncState where
  rules : List Rule
  next_id : Nat
deriving DecidableEq, Repr

/-- The `Rule(...)` constructor call in the create branch: fresh id,
title from the entry's `id`, the file path, the repository record looked
up by name, the category; CWE and OWASP start unset. The severity field
is always overwritten by `apply_rule_updates` before it is observable. -/
def new_rule (next_id : Nat) (c_rule : RuleEntry) (repos : List String)
    (file_path : String) : Rule :=
  { id := next_id, title := c_rule.id, file_path := file_path,
    repository := if repos.contains (repository_of file_path) then
        some (repository_of file_path)
      else none,
    category := category_of file_path, cwe := none, owasp := none,
    severity := SEVERITY_LOW, languages := [] }

/-- Replace the first rule carrying the given file path (the rule
`filter_by(file_path=...).first()` returns) by its image under `f`. -/
def update_first_by_path (file_path : String) (f : Rule → Rule) :
    List Rule → List Rule
  | [] => []
  | r :: rs =>
    if r.file_path == file_path then f r :: rs
    else r :: update_first_by_path file_path f rs

/-- One iteration of the per-rule loop: look up an existing rule by file
path; update it in place if found, otherwise create, add and update a new
rule. -/
def rule_entry_step (top40 : List (String × Severity))
    (supported_languages : List String) (repos : List String)
    (file_path : String) (st : SyncState) (c_rule : RuleEntry) : SyncState :=
  if st.rules.any (fun r => r.file_path == file_path) then
    { st with
      rules := update_first_by_path file_path
        (apply_rule_updates top40 supported_languages c_rule) st.rules }
  else
    { rules := st.rules ++
        [apply_rule_updates top40 supported_languages c_rule
          (new_rule st.next_id c_rule repos file_path)],
      next_id := st.next_id + 1 }

/-- Process the `rules` list of one parsed file. -/
def process_file_entries (top40 : List (String × Severity))
    (supported_languages : List String) (repos : List String)
    (file_path : String) (st : SyncState) (entries : List RuleEntry) : SyncState :=
  entries.foldl (rule_entry_step top40 supported_languages repos file_path) st

/-- `sync_db` from `src/grepmarx/rules/util.py` over the globbed files,
in order. Returns the final committed state and whether a `YAMLError`
escaped. A parse failure rolls back the pending session changes — none
exist, as `safe_load` runs before any modification for that file — and
re-raises, so files after it are not processed and the state committed by
the per-file `db.session.commit()` calls of the earlier files remains. -/
def sync_db (top40 : List (String × Severity))
    (supported_languages : List String) (repos : List String)
    (files : List RuleFile) (st : SyncState) : SyncState × Bool :=
  match files with
  | [] => (st, false)
  | f :: fs =>
    match f.parsed with
    | .failure => (st, true)
    | .no_rules => sync_db top40 supported_languages repos fs st
    | .rules entries =>
      sync_db top40 supported_languages repos fs
        (process_file_entries top40 supported_languages repos f.path st entries)

/-- Folding the per-rule update over a list of entries (the effect on one
rule of processing a whole file's `rules` list through it). -/
def apply_fold (top40 : List (String × Severity))
    (supported_languages : List String) (r : Rule) (es : List RuleEntry) : Rule :=
  es.foldl (fun r c_rule => apply_rule_updates top40 supported_languages c_rule r) r

/-- Last-writer-wins accumulator: the value after a sequence of optional
overwrites, used to describe how the CWE and OWASP fields evolve. -/
def last_set {α : Type} (f : RuleEntry → Option α) (es : List RuleEntry)
    (c : Option α) : Option α :=
  es.foldl (fun acc e => match f e with | some x => some x | none => acc) c

/-- Concrete rule entry with a language token and CWE metadata, used in
the synchronizer examples. -/
def example_entry : RuleEntry :=
  { id := "rule1", languages := some ["python"],
    metadata_cwe := some "CWE-79: XSS", metadata_owasp := none }

/-- Concrete rule file wrapping `example_entry`. -/
def example_file : RuleFile :=
  { path := "r1/python/security/a.yaml", parsed := .rules [example_entry] }

/-- Concrete curated table mapping CWE-79 to HIGH. -/
def example_top40 : List (String × Severity) := [("CWE-79", Severity.high)]

/-- State after synchronizing `example_file` once into an empty store. -/
def example_first_run : SyncState :=
  (sync_db example_top40 ["Python"] ["r1"] [example_file] ⟨[], 0⟩).1

/-- State after synchronizing `example_file` a second time. -/
def example_second_run : SyncState :=
  (sync_db example_top40 ["Python"] ["r1"] [example_file] example_first_run).1

/-- Concrete rule entry with no languages and no metadata. -/
def plain_entry : RuleEntry :=
  { id := "rule0", languages := none, metadata_cwe := none, metadata_owasp := none }

/-- A file that parses and contains one rule. -/
def ok_file : RuleFile :=
  { path := "r1/cat/a.yaml", parsed := .rules [plain_entry] }

/-- A file whose parse raises a `YAMLError`. -/
def bad_file : RuleFile :=
  { path := "r1/cat/b.yaml", parsed := .failure }

lemma has_vuln_with_severity_eq_decide (a : Analysis) (s : Severity) :
    has_vuln_with_severity a s = decide (∃ v ∈ a.vulnerabilities, v.severity = s) := by
  rw [Bool.eq_iff_iff]
  simp [has_vuln_with_severity, List.any_eq_true]

lemma has_vuln_dep_with_severity_eq_decide (a : Analysis) (s : Severity) :
    has_vuln_dep_with_severity a s = decide (∃ d ∈ a.vulnerable_dependencies, d.severity = s) := by
  rw [Bool.eq_iff_iff]
  simp [has_vuln_dep_with_severity, List.any_eq_true]

lemma base_if_eq_spec_base (a : Analysis) :
    (if has_vuln_with_severity a .critical then (75 : Int)
      else if has_vuln_with_severity a .high then 60
      else if has_vuln_with_severity a .medium then 40
      else if has_vuln_with_severity a .low then 20
      else 0) = spec_base a := by
  simp only [has_vuln_with_severity_eq_decide, spec_base, vuln_tiers_present]
  by_cases hc : ∃ v ∈ a.vulnerabilities, v.severity = Severity.critical <;>
    by_cases hh : ∃ v ∈ a.vulnerabilities, v.severity = Severity.high <;>
      by_cases hm : ∃ v ∈ a.vulnerabilities, v.severity = Severity.medium <;>
        by_cases hl : ∃ v ∈ a.vulnerabilities, v.severity = Severity.low <;>
          simp [hc, hh, hm, hl, base_of_severity]

lemma spec_adjust_sum_eq (a : Analysis) :
    spec_adjust_sum a =
      (if has_vuln_dep_with_severity a .critical then (10 : Int) else 0)
      + (if has_vuln_dep_with_severity a .high then 8 else 0)
      + (if has_vuln_dep_with_severity a .medium then 5 else 0)
      + (if has_vuln_dep_with_severity a .low then 2 else 0) := by
  simp only [has_vuln_dep_with_severity_eq_decide, spec_adjust_sum, dep_tiers_present]
  by_cases hc : ∃ d ∈ a.vulnerable_dependencies, d.severity = Severity.critical <;>
    by_cases hh : ∃ d ∈ a.vulnerable_dependencies, d.severity = Severity.high <;>
      by_cases hm : ∃ d ∈ a.vulnerable_dependencies, d.severity = Severity.medium <;>
        by_cases hl : ∃ d ∈ a.vulnerable_dependencies, d.severity = Severity.low <;>
          simp [hc, hh, hm, hl, adjust_of_severity]

/-- C1 counterexample: on a project with a non-null Analysis and positive
code count whose vulnerable dependencies sit at two tiers (CRITICAL and
HIGH), the code returns 93 = 75 + 10 + 8, while the claim's formula (base
for the highest vulnerability tier plus exactly one increment for the
highest dependency tier) gives 85 = 75 + 10: the dependency loop in
`calculate_risk_level` has no break, so one increment per present tier is
added, not only the highest. -/
theorem calculate_risk_level_single_increment_false :
    calculate_risk_level two_tier_dep_project = 93 ∧
    spec_base two_tier_dep_analysis + claim_adjust two_tier_dep_analysis = 85 := by
  constructor <;> decide

/-- C1 (amended): for every project with a non-null Analysis and strictly
positive total code count, the risk score equals the base value of the
highest severity tier among the vulnerabilities (0 if none) plus the sum
of the increments of every tier present among the vulnerable
dependencies (CRITICAL +10, HIGH +8, MEDIUM +5, LOW +2). -/
theorem calculate_risk_level_eq_base_plus_dep_sum (p : Project) (a : Analysis)
    (plc : ProjectLinesCount) (ha : p.analysis = some a)
    (hplc : p.project_lines_count = some plc) (hpos : plc.total_code_count > 0) :
    calculate_risk_level p = spec_base a + spec_adjust_sum a := by
  simp only [calculate_risk_level, ha, hplc]
  rw [if_pos hpos, base_if_eq_spec_base, spec_adjust_sum_eq]
  ring

/-- Witness for the amended C1 at the concrete two-tier project. -/
theorem calculate_risk_level_eq_base_plus_dep_sum_witness :
    calculate_risk_level two_tier_dep_project =
      spec_base two_tier_dep_analysis + spec_adjust_sum two_tier_dep_analysis :=
  calculate_risk_level_eq_base_plus_dep_sum two_tier_dep_project two_tier_dep_analysis _
    rfl rfl (by decide)

/-- C4: the risk scorer returns 0 when the project has no Analysis, when
its line count record is absent, and when its total code count is not
strictly positive, regardless of the Analysis contents; being a total
Lean function, it never raises. -/
theorem calculate_risk_level_missing_prereqs (p : Project) :
    (p.analysis = none → calculate_risk_level p = 0) ∧
    (p.project_lines_count = none → calculate_risk_level p = 0) ∧
    (∀ plc, p.project_lines_count = some plc → ¬ plc.total_code_count > 0 →
      calculate_risk_level p = 0) := by
  refine ⟨?_, ?_, ?_⟩
  · intro h
    simp [calculate_risk_level, h]
  · intro h
    cases ha : p.analysis <;> simp [calculate_risk_level, ha, h]
  · intro plc hplc hng
    cases ha : p.analysis <;> simp [calculate_risk_level, ha, hplc, hng]

/-- Witness for C4: a project with no Analysis scores 0, and a project
with a CRITICAL finding but zero code lines also scores 0. -/
theorem calculate_risk_level_missing_prereqs_witness :
    calculate_risk_level { name := "q", analysis := none, project_lines_count := none } = 0 ∧
    calculate_risk_level
      { name := "r",
        analysis := some { vulnerabilities := [{ severity := .critical, occurences := [] }],
                           vulnerable_dependencies := [] },
        project_lines_count := some
          { total_file_count := 0, total_line_count := 0, total_blank_count := 0,
            total_comment_count := 0, total_code_count := 0,
            total_complexity_count := 0, language_lines_counts := [] } } = 0 :=
  ⟨(calculate_risk_level_missing_prereqs _).1 rfl,
    (calculate_risk_level_missing_prereqs _).2.2 _ rfl (by decide)⟩

lemma foldl_add_occurences_length (l : List Vulnerability) (n : Nat) :
    l.foldl (fun acc v => acc + v.occurences.length) n
      = n + (l.map (fun v => v.occurences.length)).sum := by
  induction l generalizing n with
  | nil => simp
  | cons x xs ih => simp [List.foldl_cons, ih, Nat.add_assoc]

/-- C10: `count_occurences` returns 0 when the project has no Analysis,
and otherwise the sum over all vulnerabilities of the number of
occurrence records of each; it is a total pure function, so it never
fails and leaves the project unchanged. -/
theorem count_occurences_spec (p : Project) :
    (p.analysis = none → count_occurences p = 0) ∧
    (∀ a, p.analysis = some a →
      count_occurences p = (a.vulnerabilities.map (fun v => v.occurences.length)).sum) := by
  constructor
  · intro h
    simp [count_occurences, h]
  · intro a ha
    simp [count_occurences, ha, foldl_add_occurences_length]

/-- Witness for C10: no Analysis gives 0; an Analysis whose two
vulnerabilities carry 2 and 3 occurrences gives 5. -/
theorem count_occurences_spec_witness :
    count_occurences { name := "q", analysis := none, project_lines_count := none } = 0 ∧
    count_occurences
      { name := "s",
        analysis := some
          { vulnerabilities :=
              [{ severity := .low, occurences := [⟨0⟩, ⟨1⟩] },
               { severity := .high, occurences := [⟨2⟩, ⟨3⟩, ⟨4⟩] }],
            vulnerable_dependencies := [] },
        project_lines_count := none } = 5 := by
  refine ⟨(count_occurences_spec _).1 rfl, ?_⟩
  rw [(count_occurences_spec _).2 _ rfl]
  decide

lemma load_foldl_eq (l : List SccEntry) (acc : ProjectLinesCount) :
    l.foldl load_step acc =
      { total_file_count := acc.total_file_count + (l.map (·.count)).sum,
        total_line_count := acc.total_line_count + (l.map (·.lines)).sum,
        total_blank_count := acc.total_blank_count + (l.map (·.blank)).sum,
        total_comment_count := acc.total_comment_count + (l.map (·.comment)).sum,
        total_code_count := acc.total_code_count + (l.map (·.code)).sum,
        total_complexity_count := acc.total_complexity_count + (l.map (·.complexity)).sum,
        language_lines_counts := acc.language_lines_counts ++ l.map llc_of_scc } := by
  induction l generalizing acc with
  | nil => simp
  | cons x xs ih =>
    simp [List.foldl_cons, ih, load_step, add_assoc]

/-- C6: the aggregator produces one `LanguageLinesCount` per scc entry,
in the insertion order of the tool output, and each of the six
project-level totals equals the sum of that counter over the contained
per-language entries. -/
theorem load_project_lines_count_spec (scc_result : List SccEntry) :
    (load_project_lines_count scc_result).language_lines_counts
        = scc_result.map llc_of_scc ∧
    (load_project_lines_count scc_result).total_file_count =
      (((load_project_lines_count scc_result).language_lines_counts).map
        (·.file_count)).sum ∧
    (load_project_lines_count scc_result).total_line_count =
      (((load_project_lines_count scc_result).language_lines_counts).map
        (·.line_count)).sum ∧
    (load_project_lines_count scc_result).total_blank_count =
      (((load_project_lines_count scc_result).language_lines_counts).map
        (·.blank_count)).sum ∧
    (load_project_lines_count scc_result).total_comment_count =
      (((load_project_lines_count scc_result).language_lines_counts).map
        (·.comment_count)).sum ∧
    (load_project_lines_count scc_result).total_code_count =
      (((load_project_lines_count scc_result).language_lines_counts).map
        (·.code_count)).sum ∧
    (load_project_lines_count scc_result).total_complexity_count =
      (((load_project_lines_count scc_result).language_lines_counts).map
        (·.complexity_count)).sum := by
  rw [load_project_lines_count, load_foldl_eq]
  refine ⟨by simp, ?_, ?_, ?_, ?_, ?_, ?_⟩ <;>
    simp [llc_of_scc, List.map_map, Function.comp_def]

lemma mem_insert_desc {z x : LanguageLinesCount} {l : List LanguageLinesCount} :
    z ∈ insert_desc x l ↔ z = x ∨ z ∈ l := by
  induction l with
  | nil => simp [insert_desc]
  | cons y ys ih =>
    by_cases h : y.code_count ≤ x.code_count
    · simp [insert_desc, h]
    · simp [insert_desc, h, ih]
      tauto

lemma insert_desc_perm (x : LanguageLinesCount) (l : List LanguageLinesCount) :
    List.Perm (insert_desc x l) (x :: l) := by
  induction l with
  | nil => simp [insert_desc]
  | cons y ys ih =>
    by_cases h : y.code_count ≤ x.code_count
    · simp [insert_desc, h]
    · simp only [insert_desc, if_neg h]
      exact (ih.cons y).trans (List.Perm.swap x y ys)

lemma sorted_desc_by_code_perm (l : List LanguageLinesCount) :
    List.Perm (sorted_desc_by_code l) l := by
  induction l with
  | nil => simp [sorted_desc_by_code]
  | cons x xs ih =>
    exact (insert_desc_perm x (sorted_desc_by_code xs)).trans (ih.cons x)

lemma pairwise_insert_desc {x : LanguageLinesCount} {l : List LanguageLinesCount}
    (h : List.Pairwise (fun a b => b.code_count ≤ a.code_count) l) :
    List.Pairwise (fun a b => b.code_count ≤ a.code_count) (insert_desc x l) := by
  induction l with
  | nil => simp [insert_desc]
  | cons y ys ih =>
    rcases List.pairwise_cons.mp h with ⟨hy, hys⟩
    by_cases hc : y.code_count ≤ x.code_count
    · rw [insert_desc, if_pos hc]
      refine List.pairwise_cons.mpr ⟨?_, h⟩
      intro z hz
      rcases List.mem_cons.mp hz with rfl | hz
      · exact hc
      · exact le_trans (hy z hz) hc
    · rw [insert_desc, if_neg hc]
      refine List.pairwise_cons.mpr ⟨?_, ih hys⟩
      intro z hz
      rcases mem_insert_desc.mp hz with rfl | hz
      · exact le_of_lt (lt_of_not_le hc)
      · exact hy z hz

lemma sorted_desc_by_code_pairwise (l : List LanguageLinesCount) :
    List.Pairwise (fun a b => b.code_count ≤ a.code_count) (sorted_desc_by_code l) := by
  induction l with
  | nil => simp [sorted_desc_by_code]
  | cons x xs ih => exact pairwise_insert_desc ih

lemma filter_insert_desc (k : Int) (x : LanguageLinesCount)
    (s : List LanguageLinesCount)
    (hs : List.Pairwise (fun a b => b.code_count ≤ a.code_count) s) :
    (insert_desc x s).filter (fun z => decide (z.code_count = k)) =
      if x.code_count = k then
        x :: s.filter (fun z => decide (z.code_count = k))
      else s.filter (fun z => decide (z.code_count = k)) := by
  induction s with
  | nil =>
    by_cases hx : x.code_count = k <;> simp [insert_desc, hx]
  | cons y ys ih =>
    rcases List.pairwise_cons.mp hs with ⟨_, hys⟩
    by_cases hc : y.code_count ≤ x.code_count
    · rw [insert_desc, if_pos hc]
      by_cases hx : x.code_count = k <;> simp [List.filter_cons, hx]
    · rw [insert_desc, if_neg hc]
      have hxy : x.code_count < y.code_count := lt_of_not_le hc
      by_cases hy : y.code_count = k
      · have hx : ¬ x.code_count = k := by
          intro hxk
          exact absurd (hxk.trans hy.symm ▸ hxy) (lt_irrefl _)
        simp [List.filter_cons, hy, hx, ih hys]
      · by_cases hx : x.code_count = k <;>
          simp [List.filter_cons, hy, hx, ih hys]

lemma filter_sorted_desc_by_code (k : Int) (l : List LanguageLinesCount) :
    (sorted_desc_by_code l).filter (fun z => decide (z.code_count = k)) =
      l.filter (fun z => decide (z.code_count = k)) := by
  induction l with
  | nil => simp [sorted_desc_by_code]
  | cons x xs ih =>
    rw [sorted_desc_by_code,
      filter_insert_desc k x _ (sorted_desc_by_code_pairwise xs)]
    by_cases hx : x.code_count = k <;> simp [List.filter_cons, hx, ih]

lemma isPre_filter {α : Type} (p : α → Bool) {l₁ l₂ : List α}
    (h : l₁ <+: l₂) : l₁.filter p <+: l₂.filter p := by
  obtain ⟨t, rfl⟩ := h
  exact ⟨t.filter p, (List.filter_append l₁ t).symm⟩

/-- C8: `top_language_lines_counts` keeps at most `top_number` entries of
a stable descending reordering of the per-language list: the result has
length at most `top_number`, is sorted by code count in descending order,
is drawn from a permutation of the unmodified underlying list, and for
every code-count value the kept entries with that value form a prefix, in
original order, of the underlying entries with that value (stability). -/
theorem top_language_lines_counts_spec (project_lc : ProjectLinesCount)
    (top_number : Nat) :
    (top_language_lines_counts project_lc top_number).length ≤ top_number ∧
    List.Pairwise (fun a b => b.code_count ≤ a.code_count)
      (top_language_lines_counts project_lc top_number) ∧
    List.Perm (sorted_desc_by_code project_lc.language_lines_counts)
      project_lc.language_lines_counts ∧
    (∀ k : Int,
      (top_language_lines_counts project_lc top_number).filter
          (fun z => decide (z.code_count = k)) <+:
        project_lc.language_lines_counts.filter
          (fun z => decide (z.code_count = k))) := by
  refine ⟨?_, ?_, sorted_desc_by_code_perm _, ?_⟩
  · rw [top_language_lines_counts, List.length_take]
    exact min_le_left _ _
  · exact (sorted_desc_by_code_pairwise _).sublist (List.take_sublist _ _)
  · intro k
    have h1 : top_language_lines_counts project_lc top_number <+:
        sorted_desc_by_code project_lc.language_lines_counts :=
      ⟨(sorted_desc_by_code project_lc.language_lines_counts).drop top_number,
        List.take_append_drop _ _⟩
    have h2 := isPre_filter (fun z => decide (z.code_count = k)) h1
    rwa [filter_sorted_desc_by_code] at h2

/-- C9: `has_access` returns true unconditionally for the administrative
role, and otherwise exactly when some team both contains the user (by
username) and contains the project (by name) — i.e. the user's team set
and the project's team set are not disjoint. -/
theorem has_access_spec (teams : List Team) (current_user : User) (project : Project) :
    has_access teams current_user project = true ↔
      (current_user.role = ROLE_ADMIN ∨
        ∃ t ∈ teams, current_user.username ∈ t.members ∧ project.name ∈ t.projects) := by
  have hmem_u : ∀ t, t ∈ user_teams_of teams current_user ↔
      t ∈ teams ∧ current_user.username ∈ t.members := by
    intro t
    simp [user_teams_of, List.mem_filter, List.any_eq_true]
  have hmem_p : ∀ t, t ∈ project_teams_of teams project ↔
      t ∈ teams ∧ project.name ∈ t.projects := by
    intro t
    simp [project_teams_of, List.mem_filter, List.any_eq_true]
  by_cases hrole : current_user.role = ROLE_ADMIN
  · simp [has_access, hrole]
  · rw [has_access, if_neg hrole]
    by_cases hall : ∀ t ∈ user_teams_of teams current_user,
        t ∉ project_teams_of teams project
    · rw [if_pos (by simpa [List.all_eq_true] using hall)]
      simp only [hrole, false_or]
      constructor
      · intro hcontra
        exact absurd hcontra (by simp)
      · rintro ⟨t, ht, hu, hp⟩
        exact absurd ((hmem_p t).mpr ⟨ht, hp⟩) (hall t ((hmem_u t).mpr ⟨ht, hu⟩))
    · push_neg at hall
      obtain ⟨t, htu, htp⟩ := hall
      rw [if_neg (by
        simp only [List.all_eq_true, decide_eq_true_eq]
        push_neg
        exact ⟨t, htu, htp⟩)]
      simp only [hrole, false_or]
      refine ⟨fun _ => ?_, fun _ => trivial⟩
      exact ⟨t, ((hmem_u t).mp htu).1, ((hmem_u t).mp htu).2, ((hmem_p t).mp htp).2⟩

lemma cwe_search_eq_none_iff (l : List Char) :
    cwe_search l = none ↔ ∀ i, cwe_match_at (l.drop i) = none := by
  induction l with
  | nil =>
    simp only [cwe_search, List.drop_nil, true_iff]
    intro i
    rfl
  | cons c cs ih =>
    constructor
    · intro h i
      rw [cwe_search] at h
      cases hm : cwe_match_at (c :: cs) with
      | some ds => rw [hm] at h; exact absurd h (by simp)
      | none =>
        rw [hm] at h
        match i with
        | 0 => exact hm
        | i + 1 => exact (ih.mp h) i
    · intro h
      rw [cwe_search]
      have h0 := h 0
      simp only [List.drop_zero] at h0
      rw [h0]
      exact ih.mpr (fun i => h (i + 1))

/-- C5: the severity classifier returns LOW on a `None` input and on any
string in which `CWE-<digits>` matches nowhere (case-insensitively, at no
starting offset); when the pattern matches, the extracted `CWE-<digits>`
id is looked up in the curated table — a hit returns the table's tier
for that id, a miss returns MEDIUM. As a total Lean function it is pure
and has no side effects. -/
theorem generate_severity_spec (top40 : List (String × Severity)) :
    generate_severity top40 none = SEVERITY_LOW ∧
    (∀ s : String, cwe_search s.toList = none →
      generate_severity top40 (some s) = SEVERITY_LOW) ∧
    (∀ s : String, cwe_search s.toList = none ↔
      ∀ i, cwe_match_at (s.toList.drop i) = none) ∧
    (∀ (s : String) (ds : List Char) (sev : Severity),
      cwe_search s.toList = some ds →
      top40.lookup ("CWE-" ++ String.mk ds) = some sev →
      generate_severity top40 (some s) = sev) ∧
    (∀ (s : String) (ds : List Char),
      cwe_search s.toList = some ds →
      top40.lookup ("CWE-" ++ String.mk ds) = none →
      generate_severity top40 (some s) = SEVERITY_MEDIUM) := by
  refine ⟨rfl, ?_, fun s => cwe_search_eq_none_iff s.toList, ?_, ?_⟩
  · intro s h
    simp only [String.toList] at h
    simp [generate_severity, h]
  · intro s ds sev h hl
    simp only [String.toList] at h
    simp [generate_severity, h, hl]
  · intro s ds h hl
    simp only [String.toList] at h
    simp [generate_severity, h, hl]

/-- Witness for C5 on the concrete table mapping CWE-79 to HIGH: a string
with no CWE id classifies LOW, a lowercase `cwe-79` hits the table
case-insensitively, and a CWE absent from the table classifies MEDIUM. -/
theorem generate_severity_spec_witness :
    generate_severity [("CWE-79", Severity.high)] (some "random text") = SEVERITY_LOW ∧
    generate_severity [("CWE-79", Severity.high)] (some "cwe-79: XSS") = Severity.high ∧
    generate_severity [("CWE-79", Severity.high)]
      (some "CWE-89: SQL injection") = SEVERITY_MEDIUM :=
  ⟨(generate_severity_spec _).2.1 _ (by decide),
    (generate_severity_spec _).2.2.2.1 _ ['7', '9'] _ (by decide) (by decide),
    (generate_severity_spec _).2.2.2.2 _ ['8', '9'] (by decide) (by decide)⟩

section SyncLemmas

variable {t : List (String × Severity)} {s : List String}

lemma last_set_const_or_id {α : Type} (f : RuleEntry → Option α)
    (es : List RuleEntry) :
    (∃ v, ∀ c, last_set f es c = some v) ∨ (∀ c, last_set f es c = c) := by
  induction es with
  | nil => exact Or.inr (fun c => rfl)
  | cons e tl ih =>
    rcases ih with ⟨v, hv⟩ | hid
    · exact Or.inl ⟨v, fun c => hv _⟩
    · cases he : f e with
      | some x =>
        refine Or.inl ⟨x, fun c => ?_⟩
        rw [last_set, List.foldl_cons, he]
        exact hid _
      | none =>
        refine Or.inr (fun c => ?_)
        rw [last_set, List.foldl_cons, he]
        exact hid _

lemma last_set_idem {α : Type} (f : RuleEntry → Option α) (es : List RuleEntry)
    (c : Option α) : last_set f es (last_set f es c) = last_set f es c := by
  rcases last_set_const_or_id f es with ⟨v, hv⟩ | hid
  · rw [hv, hv]
  · rw [hid, hid]

lemma last_set_cons {α : Type} (f : RuleEntry → Option α) (e : RuleEntry)
    (tl : List RuleEntry) (c : Option α) :
    last_set f (e :: tl) c =
      last_set f tl (match f e with | some x => some x | none => c) := rfl

lemma apply_id (e : RuleEntry) (r : Rule) :
    (apply_rule_updates t s e r).id = r.id := rfl

lemma apply_title (e : RuleEntry) (r : Rule) :
    (apply_rule_updates t s e r).title = r.title := rfl

lemma apply_file_path (e : RuleEntry) (r : Rule) :
    (apply_rule_updates t s e r).file_path = r.file_path := rfl

lemma apply_repository (e : RuleEntry) (r : Rule) :
    (apply_rule_updates t s e r).repository = r.repository := rfl

lemma apply_category (e : RuleEntry) (r : Rule) :
    (apply_rule_updates t s e r).category = r.category := rfl

lemma apply_cwe (e : RuleEntry) (r : Rule) :
    (apply_rule_updates t s e r).cwe =
      (match e.metadata_cwe with | none => r.cwe | some c => some c) := rfl

lemma apply_owasp (e : RuleEntry) (r : Rule) :
    (apply_rule_updates t s e r).owasp =
      (match owasp_value e with | none => r.owasp | some x => some x) := by
  rw [apply_rule_updates, owasp_value]
  cases e.metadata_owasp with
  | none => rfl
  | some m => cases m <;> rfl

lemma apply_severity (e : RuleEntry) (r : Rule) :
    (apply_rule_updates t s e r).severity =
      generate_severity t (apply_rule_updates t s e r).cwe := rfl

lemma apply_fold_cons (e : RuleEntry) (tl : List RuleEntry) (r : Rule) :
    apply_fold t s r (e :: tl) = apply_fold t s (apply_rule_updates t s e r) tl := rfl

lemma apply_fold_id (es : List RuleEntry) (r : Rule) :
    (apply_fold t s r es).id = r.id := by
  induction es generalizing r with
  | nil => rfl
  | cons e tl ih => rw [apply_fold_cons, ih, apply_id]

lemma apply_fold_title (es : List RuleEntry) (r : Rule) :
    (apply_fold t s r es).title = r.title := by
  induction es generalizing r with
  | nil => rfl
  | cons e tl ih => rw [apply_fold_cons, ih, apply_title]

lemma apply_fold_file_path (es : List RuleEntry) (r : Rule) :
    (apply_fold t s r es).file_path = r.file_path := by
  induction es generalizing r with
  | nil => rfl
  | cons e tl ih => rw [apply_fold_cons, ih, apply_file_path]

lemma apply_fold_repository (es : List RuleEntry) (r : Rule) :
    (apply_fold t s r es).repository = r.repository := by
  induction es generalizing r with
  | nil => rfl
  | cons e tl ih => rw [apply_fold_cons, ih, apply_repository]

lemma apply_fold_category (es : List RuleEntry) (r : Rule) :
    (apply_fold t s r es).category = r.category := by
  induction es generalizing r with
  | nil => rfl
  | cons e tl ih => rw [apply_fold_cons, ih, apply_category]

lemma apply_fold_cwe (es : List RuleEntry) (r : Rule) :
    (apply_fold t s r es).cwe = last_set (·.metadata_cwe) es r.cwe := by
  induction es generalizing r with
  | nil => rfl
  | cons e tl ih =>
    rw [apply_fold_cons, ih, last_set_cons, apply_cwe]
    cases e.metadata_cwe <;> rfl

lemma apply_fold_owasp (es : List RuleEntry) (r : Rule) :
    (apply_fold t s r es).owasp = last_set owasp_value es r.owasp := by
  induction es generalizing r with
  | nil => rfl
  | cons e tl ih =>
    rw [apply_fold_cons, ih, last_set_cons, apply_owasp]
    cases owasp_value e <;> rfl

lemma apply_fold_severity (e : RuleEntry) (tl : List RuleEntry) (r : Rule) :
    (apply_fold t s r (e :: tl)).severity =
      generate_severity t (apply_fold t s r (e :: tl)).cwe := by
  induction tl generalizing e r with
  | nil => rfl
  | cons e2 tl2 ih =>
    rw [apply_fold_cons, show apply_fold t s (apply_rule_updates t s e r) (e2 :: tl2)
      = apply_fold t s (apply_rule_updates t s e r) (e2 :: tl2) from rfl]
    exact ih e2 (apply_rule_updates t s e r)

lemma rule_key_apply_fold_congr (es : List RuleEntry) {r r' : Rule}
    (h : rule_key r = rule_key r') :
    rule_key (apply_fold t s r es) = rule_key (apply_fold t s r' es) := by
  have h1 := congrArg RuleKey.id h
  have h2 := congrArg RuleKey.title h
  have h3 := congrArg RuleKey.file_path h
  have h4 := congrArg RuleKey.repository h
  have h5 := congrArg RuleKey.category h
  have h6 := congrArg RuleKey.cwe h
  have h7 := congrArg RuleKey.owasp h
  have h8 := congrArg RuleKey.severity h
  simp only [rule_key] at h1 h2 h3 h4 h5 h6 h7 h8
  cases es with
  | nil =>
    simp only [rule_key, apply_fold, List.foldl_nil]
    rw [h1, h2, h3, h4, h5, h6, h7, h8]
  | cons e tl =>
    simp only [rule_key, RuleKey.mk.injEq]
    rw [apply_fold_id, apply_fold_id, apply_fold_title, apply_fold_title,
      apply_fold_file_path, apply_fold_file_path, apply_fold_repository,
      apply_fold_repository, apply_fold_category, apply_fold_category,
      apply_fold_cwe, apply_fold_cwe, apply_fold_owasp, apply_fold_owasp,
      apply_fold_severity, apply_fold_severity, apply_fold_cwe, apply_fold_cwe,
      h1, h2, h3, h4, h5, h6, h7]
    simp

lemma rule_key_apply_fold_idem (es : List RuleEntry) (r : Rule) :
    rule_key (apply_fold t s (apply_fold t s r es) es) =
      rule_key (apply_fold t s r es) := by
  cases es with
  | nil => rfl
  | cons e tl =>
    simp only [rule_key, RuleKey.mk.injEq]
    rw [apply_fold_id, apply_fold_title, apply_fold_file_path,
      apply_fold_repository, apply_fold_category, apply_fold_cwe,
      apply_fold_cwe, apply_fold_owasp, apply_fold_owasp,
      apply_fold_severity, apply_fold_severity, apply_fold_cwe, apply_fold_cwe,
      last_set_idem, last_set_idem]
    simp

lemma find?_cons_pos {α : Type} {pr : α → Bool} {x : α} (xs : List α)
    (h : pr x = true) : (x :: xs).find? pr = some x := by
  unfold List.find?
  rw [h]

lemma find?_cons_neg {α : Type} {pr : α → Bool} {x : α} (xs : List α)
    (h : pr x = false) : (x :: xs).find? pr = xs.find? pr := by
  conv_lhs => unfold List.find?
  rw [h]

lemma findp_cons_pos (p : String) {x : Rule} (xs : List Rule)
    (h : (x.file_path == p) = true) :
    (x :: xs).find? (fun r => r.file_path == p) = some x :=
  find?_cons_pos xs h

lemma findp_cons_neg (p : String) {x : Rule} (xs : List Rule)
    (h : (x.file_path == p) = false) :
    (x :: xs).find? (fun r => r.file_path == p) =
      xs.find? (fun r => r.file_path == p) :=
  find?_cons_neg xs h

lemma update_first_congr (p : String) {f g : Rule → Rule}
    (h : ∀ r, f r = g r) (l : List Rule) :
    update_first_by_path p f l = update_first_by_path p g l := by
  induction l with
  | nil => rfl
  | cons r rs ih =>
    rw [update_first_by_path, update_first_by_path]
    cases hr : r.file_path == p <;> simp [hr, h r, ih]

lemma update_first_id (p : String) (l : List Rule) :
    update_first_by_path p (fun r => r) l = l := by
  induction l with
  | nil => rfl
  | cons r rs ih =>
    rw [update_first_by_path]
    cases hr : r.file_path == p <;> simp [hr, ih]

lemma update_first_comp (p : String) {f g : Rule → Rule}
    (hg : ∀ r, (g r).file_path = r.file_path) (l : List Rule) :
    update_first_by_path p f (update_first_by_path p g l) =
      update_first_by_path p (fun r => f (g r)) l := by
  induction l with
  | nil => rfl
  | cons r rs ih =>
    cases hr : r.file_path == p with
    | true =>
      rw [update_first_by_path, if_pos hr, update_first_by_path, if_pos (by rw [hg r]; exact hr),
        update_first_by_path, if_pos hr]
    | false =>
      rw [update_first_by_path, if_neg (by simp [hr]), update_first_by_path,
        if_neg (by simp [hr]), update_first_by_path, if_neg (by simp [hr]), ih]

lemma update_first_map {γ : Type} (p : String) {f : Rule → Rule} (g : Rule → γ)
    (hfg : ∀ r, g (f r) = g r) (l : List Rule) :
    (update_first_by_path p f l).map g = l.map g := by
  induction l with
  | nil => rfl
  | cons r rs ih =>
    rw [update_first_by_path]
    cases hr : r.file_path == p <;> simp [hr, hfg, ih]

lemma update_first_append_of_none (p : String) (f : Rule → Rule)
    {l : List Rule} (hl : ∀ r ∈ l, (r.file_path == p) = false) (l' : List Rule) :
    update_first_by_path p f (l ++ l') = l ++ update_first_by_path p f l' := by
  induction l with
  | nil => rfl
  | cons r rs ih =>
    rw [List.cons_append, update_first_by_path, if_neg (by simp [hl r (by simp)]),
      ih (fun x hx => hl x (by simp [hx]))]
    rfl

lemma update_first_keys_of_stable (p : String) {f : Rule → Rule} :
    ∀ l : List Rule,
    (∀ r, l.find? (fun x => x.file_path == p) = some r → rule_key (f r) = rule_key r) →
    (update_first_by_path p f l).map rule_key = l.map rule_key := by
  intro l
  induction l with
  | nil => intro _; rfl
  | cons r rs ih =>
    intro hstab
    cases hr : r.file_path == p with
    | true =>
      rw [update_first_by_path, if_pos hr, List.map_cons, List.map_cons,
        hstab r (findp_cons_pos p rs hr)]
    | false =>
      rw [update_first_by_path, if_neg (by simp [hr]), List.map_cons, List.map_cons,
        ih (fun x hx => hstab x (by rw [findp_cons_neg p rs hr]; exact hx))]

lemma find?_update_first_self (p : String) {f : Rule → Rule}
    (hf : ∀ x, (f x).file_path = x.file_path) :
    ∀ {l : List Rule} {r : Rule},
    l.find? (fun x => x.file_path == p) = some r →
    (update_first_by_path p f l).find? (fun x => x.file_path == p) = some (f r) := by
  intro l
  induction l with
  | nil => intro r h; exact absurd h (by simp)
  | cons x xs ih =>
    intro r h
    cases hx : x.file_path == p with
    | true =>
      rw [findp_cons_pos p xs hx] at h
      cases h
      rw [update_first_by_path, if_pos hx,
        findp_cons_pos p xs (by rw [hf x]; exact hx)]
    | false =>
      rw [findp_cons_neg p xs hx] at h
      rw [update_first_by_path, if_neg (by simp [hx]),
        findp_cons_neg p _ hx]
      exact ih h

lemma find?_update_first_other {p q : String} (hpq : p ≠ q) {f : Rule → Rule}
    (hf : ∀ x, (f x).file_path = x.file_path) :
    ∀ l : List Rule,
    (update_first_by_path q f l).find? (fun x => x.file_path == p) =
      l.find? (fun x => x.file_path == p) := by
  intro l
  induction l with
  | nil => rfl
  | cons x xs ih =>
    cases hq : x.file_path == q with
    | true =>
      have hq' : x.file_path = q := by simpa using hq
      have hxp : (x.file_path == p) = false := by
        rw [hq']
        exact beq_false_of_ne (Ne.symm hpq)
      rw [update_first_by_path, if_pos hq,
        findp_cons_neg p xs (by rw [hf x]; exact hxp),
        findp_cons_neg p xs hxp]
    | false =>
      cases hp : x.file_path == p with
      | true =>
        rw [update_first_by_path, if_neg (by simp [hq]),
          findp_cons_pos p _ hp, findp_cons_pos p xs hp]
      | false =>
        rw [update_first_by_path, if_neg (by simp [hq]),
          findp_cons_neg p _ hp,
          findp_cons_neg p xs hp, ih]

lemma find?_append_some {pr : Rule → Bool} {l : List Rule} {r : Rule}
    (h : l.find? pr = some r) (l' : List Rule) :
    (l ++ l').find? pr = some r := by
  induction l with
  | nil => exact absurd h (by simp)
  | cons x xs ih =>
    cases hx : pr x with
    | true =>
      rw [find?_cons_pos _ hx] at h
      rw [List.cons_append, find?_cons_pos _ hx]
      exact h
    | false =>
      rw [find?_cons_neg _ (by simp [hx])] at h
      rw [List.cons_append, find?_cons_neg _ (by simp [hx])]
      exact ih h

lemma find?_append_none {pr : Rule → Bool} {l : List Rule}
    (h : l.find? pr = none) (l' : List Rule) :
    (l ++ l').find? pr = l'.find? pr := by
  induction l with
  | nil => rfl
  | cons x xs ih =>
    cases hx : pr x with
    | true =>
      rw [find?_cons_pos _ hx] at h
      exact absurd h (by simp)
    | false =>
      rw [find?_cons_neg _ (by simp [hx])] at h
      rw [List.cons_append, find?_cons_neg _ (by simp [hx])]
      exact ih h

lemma find?_of_keymap_eq (p : String) :
    ∀ {l1 l2 : List Rule}, l1.map rule_key = l2.map rule_key →
    (l1.find? (fun x => x.file_path == p)).map rule_key =
      (l2.find? (fun x => x.file_path == p)).map rule_key := by
  intro l1
  induction l1 with
  | nil =>
    intro l2 h
    cases l2 with
    | nil => rfl
    | cons y ys => exact absurd h (by simp)
  | cons x xs ih =>
    intro l2 h
    cases l2 with
    | nil => exact absurd h (by simp)
    | cons y ys =>
      simp only [List.map_cons, List.cons.injEq] at h
      have hpath : x.file_path = y.file_path := by
        have := congrArg RuleKey.file_path h.1
        simpa [rule_key] using this
      cases hx : x.file_path == p with
      | true =>
        rw [findp_cons_pos p xs hx,
          findp_cons_pos p ys (by rw [← hpath]; exact hx)]
        simp [h.1]
      | false =>
        rw [findp_cons_neg p xs hx,
          findp_cons_neg p ys (by rw [← hpath]; exact hx)]
        exact ih h.2

lemma any_path_of_find? {p : String} {l : List Rule} {r : Rule}
    (h : l.find? (fun x => x.file_path == p) = some r) :
    l.any (fun x => x.file_path == p) = true := by
  have : (l.find? (fun x => x.file_path == p)).isSome := by rw [h]; rfl
  rw [List.find?_isSome] at this
  rw [List.any_eq_true]
  exact this

lemma find?_some_of_any {p : String} {l : List Rule}
    (h : l.any (fun x => x.file_path == p) = true) :
    ∃ r, l.find? (fun x => x.file_path == p) = some r := by
  rw [List.any_eq_true] at h
  have : (l.find? (fun x => x.file_path == p)).isSome := List.find?_isSome.mpr h
  cases hf : l.find? (fun x => x.file_path == p) with
  | none => rw [hf] at this; exact absurd this (by simp)
  | some r => exact ⟨r, rfl⟩

lemma any_update_first (p : String) {f : Rule → Rule}
    (hf : ∀ x, (f x).file_path = x.file_path) (l : List Rule) :
    (update_first_by_path p f l).any (fun r => r.file_path == p) =
      l.any (fun r => r.file_path == p) := by
  induction l with
  | nil => rfl
  | cons r rs ih =>
    rw [update_first_by_path]
    cases hr : r.file_path == p <;>
      simp [hr, List.any_cons, hf, ih]

lemma process_file_entries_of_any (p : String) (rp : List String)
    (es : List RuleEntry) :
    ∀ st : SyncState, st.rules.any (fun r => r.file_path == p) = true →
    process_file_entries t s rp p st es =
      { st with
        rules := update_first_by_path p (fun r => apply_fold t s r es) st.rules } := by
  induction es with
  | nil =>
    intro st h
    rw [process_file_entries, List.foldl_nil,
      @update_first_congr p (fun r => apply_fold t s r []) (fun r => r)
        (fun r => rfl) st.rules, update_first_id]
  | cons e tl ih =>
    intro st h
    rw [process_file_entries, List.foldl_cons,
      show rule_entry_step t s rp p st e =
        { st with
          rules := update_first_by_path p (apply_rule_updates t s e) st.rules }
        from by rw [rule_entry_step, if_pos h],
      ← process_file_entries]
    have h' : (update_first_by_path p (apply_rule_updates t s e) st.rules).any
        (fun r => r.file_path == p) = true := by
      rw [any_update_first p (fun x => apply_file_path e x)]
      exact h
    rw [ih _ h', update_first_comp p (fun x => apply_file_path e x),
      @update_first_congr p
        (fun r => apply_fold t s (apply_rule_updates t s e r) tl)
        (fun r => apply_fold t s r (e :: tl)) (fun r => rfl) st.rules]

lemma process_file_entries_of_none (p : String) (rp : List String)
    (e : RuleEntry) (tl : List RuleEntry) (st : SyncState)
    (h : st.rules.any (fun r => r.file_path == p) = false) :
    process_file_entries t s rp p st (e :: tl) =
      { rules := st.rules ++
          [apply_fold t s (new_rule st.next_id e rp p) (e :: tl)],
        next_id := st.next_id + 1 } := by
  rw [process_file_entries, List.foldl_cons,
    show rule_entry_step t s rp p st e =
      SyncState.mk
        (st.rules ++ [apply_rule_updates t s e (new_rule st.next_id e rp p)])
        (st.next_id + 1)
      from by rw [rule_entry_step, if_neg (by simp [h])],
    ← process_file_entries]
  have hpath : (apply_rule_updates t s e (new_rule st.next_id e rp p)).file_path = p := by
    rw [apply_file_path]
    rfl
  have hany : (st.rules ++
      [apply_rule_updates t s e (new_rule st.next_id e rp p)]).any
      (fun r => r.file_path == p) = true := by
    rw [List.any_append]
    simp [hpath]
  rw [process_file_entries_of_any p rp tl _ hany]
  have hall : ∀ r ∈ st.rules, (r.file_path == p) = false := by
    intro r hr
    rw [List.any_eq_false] at h
    simpa using h r hr
  rw [update_first_append_of_none p _ hall, update_first_by_path,
    if_pos (by rw [hpath]; exact beq_self_eq_true p)]
  rfl

lemma find?_process_file (p : String) (rp : List String) (e : RuleEntry)
    (tl : List RuleEntry) (st : SyncState) :
    ∃ base : Rule,
      (process_file_entries t s rp p st (e :: tl)).rules.find?
          (fun r => r.file_path == p) = some (apply_fold t s base (e :: tl)) := by
  cases hany : st.rules.any (fun r => r.file_path == p) with
  | true =>
    obtain ⟨r, hr⟩ := find?_some_of_any hany
    refine ⟨r, ?_⟩
    rw [process_file_entries_of_any p rp (e :: tl) st hany]
    exact find?_update_first_self p (fun x => apply_fold_file_path (e :: tl) x) hr
  | false =>
    refine ⟨new_rule st.next_id e rp p, ?_⟩
    rw [process_file_entries_of_none p rp e tl st hany]
    have hnone : st.rules.find? (fun r => r.file_path == p) = none := by
      rw [List.find?_eq_none]
      intro x hx
      rw [List.any_eq_false] at hany
      simpa using hany x hx
    rw [find?_append_none hnone]
    exact findp_cons_pos p []
      (by rw [apply_fold_file_path]; exact beq_self_eq_true p)

lemma find?_process_file_other {p q : String} (hpq : p ≠ q) (rp : List String)
    (es : List RuleEntry) :
    ∀ st : SyncState,
    (process_file_entries t s rp q st es).rules.find? (fun r => r.file_path == p) =
      st.rules.find? (fun r => r.file_path == p) := by
  induction es with
  | nil => intro st; rfl
  | cons e tl ih =>
    intro st
    rw [process_file_entries, List.foldl_cons, ← process_file_entries, ih]
    by_cases hany : (st.rules.any (fun r => r.file_path == q)) = true
    · rw [rule_entry_step, if_pos hany]
      exact find?_update_first_other hpq (fun x => apply_file_path e x) st.rules
    · rw [rule_entry_step, if_neg hany]
      cases hfind : st.rules.find? (fun r => r.file_path == p) with
      | some r => exact find?_append_some hfind _
      | none =>
        rw [find?_append_none hfind,
          findp_cons_neg p []
            (by rw [apply_file_path, show (new_rule st.next_id e rp q).file_path = q
                from rfl]; exact beq_false_of_ne (Ne.symm hpq))]
        rfl

lemma find?_sync_db_not_touched (rp : List String) (p : String) :
    ∀ (files : List RuleFile) (st : SyncState),
    p ∉ files.map RuleFile.path →
    (sync_db t s rp files st).1.rules.find? (fun r => r.file_path == p) =
      st.rules.find? (fun r => r.file_path == p) := by
  intro files
  induction files with
  | nil => intro st _; rfl
  | cons f fs ih =>
    intro st hp
    rw [List.map_cons, List.mem_cons] at hp
    push_neg at hp
    obtain ⟨hp1, hp2⟩ := hp
    cases hf : f.parsed with
    | failure => simp only [sync_db, hf]
    | no_rules =>
      simp only [sync_db, hf]
      exact ih st hp2
    | rules es =>
      simp only [sync_db, hf]
      rw [ih _ hp2]
      exact find?_process_file_other hp1 rp es st

lemma sync_db_rerun (rp : List String) :
    ∀ (files : List RuleFile) (u v : SyncState),
    (files.map RuleFile.path).Nodup →
    v.rules.map rule_key = (sync_db t s rp files u).1.rules.map rule_key →
    v.next_id = (sync_db t s rp files u).1.next_id →
    (sync_db t s rp files v).1.rules.map rule_key = v.rules.map rule_key ∧
    (sync_db t s rp files v).1.next_id = v.next_id ∧
    (sync_db t s rp files v).2 = (sync_db t s rp files u).2 := by
  intro files
  induction files with
  | nil =>
    intro u v _ _ _
    exact ⟨rfl, rfl, rfl⟩
  | cons f fs ih =>
    intro u v hnd hkeys hnid
    rw [List.map_cons, List.nodup_cons] at hnd
    obtain ⟨hfp, hnd'⟩ := hnd
    cases hf : f.parsed with
    | failure =>
      simp only [sync_db, hf] at hkeys hnid ⊢
      exact ⟨trivial, trivial, trivial⟩
    | no_rules =>
      simp only [sync_db, hf] at hkeys hnid ⊢
      exact ih u v hnd' hkeys hnid
    | rules es =>
      simp only [sync_db, hf] at hkeys hnid ⊢
      cases es with
      | nil =>
        rw [show process_file_entries t s rp f.path u [] = u from rfl] at hkeys hnid
        rw [show process_file_entries t s rp f.path v [] = v from rfl]
        exact ih u v hnd' hkeys hnid
      | cons e tl =>
        obtain ⟨base, hbase⟩ := find?_process_file f.path rp e tl u
        have hsyncfind :
            (sync_db t s rp fs
                (process_file_entries t s rp f.path u (e :: tl))).1.rules.find?
                (fun r => r.file_path == f.path) =
              some (apply_fold t s base (e :: tl)) := by
          rw [find?_sync_db_not_touched rp f.path fs _ hfp]
          exact hbase
        have h1 := find?_of_keymap_eq f.path hkeys
        rw [hsyncfind] at h1
        cases hfv : v.rules.find? (fun r => r.file_path == f.path) with
        | none =>
          rw [hfv] at h1
          exact absurd h1 (by simp)
        | some rv =>
          rw [hfv, Option.map_some'] at h1
          replace h1 := Option.some.inj h1
          have hstab : ∀ r, v.rules.find? (fun x => x.file_path == f.path) = some r →
              rule_key (apply_fold t s r (e :: tl)) = rule_key r := by
            intro r hr
            rw [hfv] at hr
            cases hr
            calc rule_key (apply_fold t s rv (e :: tl))
                = rule_key (apply_fold t s (apply_fold t s base (e :: tl)) (e :: tl)) :=
                  rule_key_apply_fold_congr (e :: tl) h1
              _ = rule_key (apply_fold t s base (e :: tl)) :=
                  rule_key_apply_fold_idem (e :: tl) base
              _ = rule_key rv := h1.symm
          have hany_v := any_path_of_find? hfv
          have hpfe := @process_file_entries_of_any t s f.path rp (e :: tl) v hany_v
          have hpfek : (process_file_entries t s rp f.path v (e :: tl)).rules.map
              rule_key = v.rules.map rule_key := by
            rw [hpfe]
            exact update_first_keys_of_stable f.path v.rules hstab
          have hpfen : (process_file_entries t s rp f.path v (e :: tl)).next_id =
              v.next_id := by
            rw [hpfe]
          obtain ⟨r1, r2, r3⟩ := ih (process_file_entries t s rp f.path u (e :: tl))
            (process_file_entries t s rp f.path v (e :: tl)) hnd'
            (by rw [hpfek]; exact hkeys)
            (by rw [hpfen]; exact hnid)
          exact ⟨by rw [r1, hpfek], by rw [r2, hpfen], r3⟩

lemma idpath_step (rp : List String) (p : String) (st : SyncState) (e : RuleEntry) :
    st.rules.map (fun r => (r.id, r.file_path)) <+:
      (rule_entry_step t s rp p st e).rules.map (fun r => (r.id, r.file_path)) := by
  rw [rule_entry_step]
  by_cases hany : (st.rules.any (fun r => r.file_path == p)) = true
  · rw [if_pos hany]
    rw [show (update_first_by_path p (apply_rule_updates t s e) st.rules).map
          (fun r => (r.id, r.file_path)) =
        st.rules.map (fun r => (r.id, r.file_path)) from
      update_first_map p _ (fun r => by rw [apply_id, apply_file_path]) st.rules]
  · rw [if_neg hany]
    exact ⟨_, (List.map_append _ _ _).symm⟩

lemma idpath_entries (rp : List String) (p : String) (es : List RuleEntry) :
    ∀ st : SyncState,
    st.rules.map (fun r => (r.id, r.file_path)) <+:
      (process_file_entries t s rp p st es).rules.map (fun r => (r.id, r.file_path)) := by
  induction es with
  | nil => intro st; exact ⟨[], List.append_nil _⟩
  | cons e tl ih =>
    intro st
    rw [process_file_entries, List.foldl_cons, ← process_file_entries]
    exact (idpath_step rp p st e).trans (ih _)

lemma idpath_sync (rp : List String) :
    ∀ (files : List RuleFile) (st : SyncState),
    st.rules.map (fun r => (r.id, r.file_path)) <+:
      (sync_db t s rp files st).1.rules.map (fun r => (r.id, r.file_path)) := by
  intro files
  induction files with
  | nil => intro st; exact ⟨[], List.append_nil _⟩
  | cons f fs ih =>
    intro st
    cases hf : f.parsed with
    | failure =>
      simp only [sync_db, hf]
      exact ⟨[], List.append_nil _⟩
    | no_rules =>
      simp only [sync_db, hf]
      exact ih st
    | rules es =>
      simp only [sync_db, hf]
      exact (idpath_entries rp f.path es st).trans (ih _)

lemma paths_nodup_step (rp : List String) (p : String) (st : SyncState)
    (e : RuleEntry) (h : (st.rules.map (fun r => r.file_path)).Nodup) :
    ((rule_entry_step t s rp p st e).rules.map (fun r => r.file_path)).Nodup := by
  rw [rule_entry_step]
  by_cases hany : (st.rules.any (fun r => r.file_path == p)) = true
  · rw [if_pos hany]
    rw [show (update_first_by_path p (apply_rule_updates t s e) st.rules).map
          (fun r => r.file_path) = st.rules.map (fun r => r.file_path) from
      update_first_map p _ (fun r => apply_file_path e r) st.rules]
    exact h
  · rw [if_neg hany]
    rw [List.map_append, List.nodup_append]
    refine ⟨h, by simp, ?_⟩
    intro a ha hb
    have hb' : a = p := by
      simp only [List.map_cons, List.map_nil, List.mem_singleton] at hb
      rw [hb, apply_file_path]
      rfl
    rw [Bool.not_eq_true, List.any_eq_false] at hany
    obtain ⟨r, hr, hra⟩ := List.mem_map.mp ha
    have := hany r hr
    rw [hra, hb'] at this
    simp at this

lemma paths_nodup_entries (rp : List String) (p : String) (es : List RuleEntry) :
    ∀ st : SyncState, (st.rules.map (fun r => r.file_path)).Nodup →
    ((process_file_entries t s rp p st es).rules.map (fun r => r.file_path)).Nodup := by
  induction es with
  | nil => intro st h; exact h
  | cons e tl ih =>
    intro st h
    rw [process_file_entries, List.foldl_cons, ← process_file_entries]
    exact ih _ (paths_nodup_step rp p st e h)

lemma paths_nodup_sync (rp : List String) :
    ∀ (files : List RuleFile) (st : SyncState),
    (st.rules.map (fun r => r.file_path)).Nodup →
    ((sync_db t s rp files st).1.rules.map (fun r => r.file_path)).Nodup := by
  intro files
  induction files with
  | nil => intro st h; exact h
  | cons f fs ih =>
    intro st h
    cases hf : f.parsed with
    | failure =>
      simp only [sync_db, hf]
      exact h
    | no_rules =>
      simp only [sync_db, hf]
      exact ih st h
    | rules es =>
      simp only [sync_db, hf]
      exact ih _ (paths_nodup_entries rp f.path es st h)

lemma sync_db_append_failure (rp : List String) (bad : RuleFile)
    (hbad : bad.parsed = ParsedYaml.failure) (fs2 : List RuleFile) :
    ∀ (fs1 : List RuleFile), (∀ f ∈ fs1, f.parsed ≠ ParsedYaml.failure) →
    ∀ st : SyncState,
    sync_db t s rp (fs1 ++ bad :: fs2) st = ((sync_db t s rp fs1 st).1, true) := by
  intro fs1
  induction fs1 with
  | nil =>
    intro _ st
    simp only [List.nil_append, sync_db, hbad]
  | cons f fs ih =>
    intro hok st
    have hf := hok f (by simp)
    cases hfp : f.parsed with
    | failure => exact absurd hfp hf
    | no_rules =>
      simp only [List.cons_append, sync_db, hfp]
      exact ih (fun x hx => hok x (by simp [hx])) _
    | rules es =>
      simp only [List.cons_append, sync_db, hfp]
      exact ih (fun x hx => hok x (by simp [hx])) _

end SyncLemmas

/-- C2: a synchronization run only ever updates the first rule found by
exact file-path lookup or appends fresh rules: the `(id, file_path)`
sequence of the pre-run store is a prefix of the post-run one (so every
existing Rule keeps its identifier and path), and if the store held at
most one rule per file path before the run it still does afterwards (a
new Rule is created only when no rule with that path exists). -/
theorem sync_db_upsert_by_file_path (top40 : List (String × Severity))
    (sls repos : List String) (files : List RuleFile) (st : SyncState) :
    (st.rules.map (fun r => (r.id, r.file_path)) <+:
      (sync_db top40 sls repos files st).1.rules.map
        (fun r => (r.id, r.file_path))) ∧
    ((st.rules.map (fun r => r.file_path)).Nodup →
      ((sync_db top40 sls repos files st).1.rules.map
        (fun r => r.file_path)).Nodup) :=
  ⟨idpath_sync repos files st, fun h => paths_nodup_sync repos files st h⟩

/-- Witness for C2: synchronizing a file twice over (same path) into an
empty store yields a single rule with id 0 — path-uniqueness holds and
the id is stable. -/
theorem sync_db_upsert_by_file_path_witness :
    (((sync_db example_top40 ["Python"] ["r1"] [example_file, example_file]
        ⟨[], 0⟩).1.rules.map (fun r => r.file_path)).Nodup) ∧
    ((sync_db example_top40 ["Python"] ["r1"] [example_file, example_file]
        ⟨[], 0⟩).1.rules.map (fun r => (r.id, r.file_path)) =
      [(0, "r1/python/security/a.yaml")]) :=
  ⟨(sync_db_upsert_by_file_path example_top40 ["Python"] ["r1"]
      [example_file, example_file] ⟨[], 0⟩).2 (by decide), by decide⟩

/-- C3 counterexample: with an empty store, a run over a file that parses
(creating one rule) followed by a file whose parse fails raises the error
but leaves the first file's rule committed — the store is NOT rolled back
to its pre-run state, because `sync_db` commits after every successfully
processed file and the `except` branch only rolls back the (empty)
pending changes of the failing file. -/
theorem sync_db_whole_run_rollback_false :
    (sync_db [] [] ["r1"] [ok_file, bad_file] ⟨[], 0⟩).2 = true ∧
    (sync_db [] [] ["r1"] [ok_file, bad_file] ⟨[], 0⟩).1.rules.map
        (fun r => (r.id, r.file_path)) = [(0, "r1/cat/a.yaml")] ∧
    (⟨[], 0⟩ : SyncState).rules.map (fun r => (r.id, r.file_path)) = [] := by
  refine ⟨by decide, by decide, by decide⟩

/-- C3 (amended): a parse failure aborts the synchronization run at the
failing file — the files after it are not processed and the failure is
surfaced to the caller — but it rolls back only the failing file's (empty)
pending changes: the store keeps exactly the rules committed for the
files fully processed earlier in the same run, and rules committed by
earlier runs (the initial state) are untouched. -/
theorem sync_db_parse_failure_aborts (top40 : List (String × Severity))
    (sls repos : List String) (fs1 : List RuleFile) (bad : RuleFile)
    (fs2 : List RuleFile) (st : SyncState)
    (hbad : bad.parsed = ParsedYaml.failure)
    (hok : ∀ f ∈ fs1, f.parsed ≠ ParsedYaml.failure) :
    sync_db top40 sls repos (fs1 ++ bad :: fs2) st =
      ((sync_db top40 sls repos fs1 st).1, true) :=
  sync_db_append_failure repos bad hbad fs2 fs1 hok st

/-- Witness for the amended C3 at the concrete two-file run. -/
theorem sync_db_parse_failure_aborts_witness :
    sync_db [] [] ["r1"] ([ok_file] ++ bad_file :: []) ⟨[], 0⟩ =
      ((sync_db [] [] ["r1"] [ok_file] ⟨[], 0⟩).1, true) :=
  sync_db_parse_failure_aborts [] [] ["r1"] [ok_file] bad_file [] ⟨[], 0⟩ rfl
    (by intro f hf; rw [List.mem_singleton] at hf; rw [hf]; decide)

/-- C7 counterexample: re-synchronizing an unchanged file keeps the rule
identifiers but does NOT keep every field value: the language association
is additive, so the second run appends the matched language again and the
rule's language list grows from one entry to two. -/
theorem sync_db_idempotent_false :
    example_first_run.rules.map (fun r => r.languages) = [["Python"]] ∧
    example_second_run.rules.map (fun r => r.languages) = [["Python", "Python"]] ∧
    example_second_run.rules.map (fun r => r.id) =
      example_first_run.rules.map (fun r => r.id) := by
  refine ⟨by decide, by decide, by decide⟩

/-- C7 (amended): for a checkout whose rule files have pairwise distinct
paths, running synchronization a second time creates no rule and changes
no field other than the language associations: the sequences of rule
identifiers, fresh-id counters, and of every field except `languages`
(title, file path, repository, category, CWE, OWASP, severity — the
`rule_key` projection) coincide after the first and the second run, and
the second run raises a parse error exactly when the first did; only the
`languages` lists differ, growing additively (counterexample above). -/
theorem sync_db_second_run_stable (top40 : List (String × Severity))
    (sls repos : List String) (files : List RuleFile) (st : SyncState)
    (hnd : (files.map RuleFile.path).Nodup) :
    ((sync_db top40 sls repos files
        (sync_db top40 sls repos files st).1).1.rules.map rule_key =
      (sync_db top40 sls repos files st).1.rules.map rule_key) ∧
    ((sync_db top40 sls repos files
        (sync_db top40 sls repos files st).1).1.next_id =
      (sync_db top40 sls repos files st).1.next_id) ∧
    ((sync_db top40 sls repos files
        (sync_db top40 sls repos files st).1).2 =
      (sync_db top40 sls repos files st).2) :=
  sync_db_rerun repos files st (sync_db top40 sls repos files st).1 hnd rfl rfl

/-- Witness for the amended C7: on the concrete one-file checkout the
second run preserves every non-language field of the single rule. -/
theorem sync_db_second_run_stable_witness :
    example_second_run.rules.map rule_key = example_first_run.rules.map rule_key :=
  (sync_db_second_run_stable example_top40 ["Python"] ["r1"] [example_file]
    ⟨[], 0⟩ (by decide)).1

end Grepmarx
